import Mathlib

/-!
Shallow embedding of the koishi trajectory sampler.

The source program has two trajectory generators and a sampling loop:
* `EllipticTrajectory` walks a rotated ellipse parametrically (modelled over ℝ,
  since it uses sine and cosine);
* `InterpolatedTrajectory` walks a cyclic list of (x, y, duration) nodes,
  linearly interpolating inside each segment (modelled over ℚ, exact
  arithmetic; nodes are lists so that the arity check of the constructor is
  meaningful);
* the sampling loop of main advances the parent interpolator once per
  iteration and each elliptic child once, emitting the componentwise sum of
  the two deltas.

The two while loops of InterpolatedTrajectory.get_next_position are embedded
with explicit fuel returning Option: `none` means the fuel was exhausted
before the loop condition became false.  Termination (claim C5) is the
statement that sufficient fuel always exists.
-/

namespace Koishi

noncomputable section Elliptic

open Real

/-- State of the elliptic trajectory: rotation, axis lengths, accumulated
phase parameter t, and the last two sampled positions. -/
structure EllipticTrajectory where
  rotation : ℝ
  x_length : ℝ
  y_length : ℝ
  t : ℝ
  curr_pos : ℝ × ℝ
  last_pos : ℝ × ℝ

/-- One call of EllipticTrajectory.get_next_position: add the step to t,
compute the rotated-ellipse position at the new t, apply at most one
wraparound correction by 1000·π, shift the position history.  Returns the
sampled position together with the updated state. -/
def EllipticTrajectory.get_next_position (s : EllipticTrajectory) (step : ℝ) :
    (ℝ × ℝ) × EllipticTrajectory :=
  let t := s.t + step
  let x := s.x_length * Real.cos t * Real.cos s.rotation -
           s.y_length * Real.sin t * Real.sin s.rotation
  let y := s.x_length * Real.cos t * Real.sin s.rotation +
           s.y_length * Real.sin t * Real.cos s.rotation
  let t2 := if t ≥ 1000 * π then t - 1000 * π
            else if t ≤ -1000 * π then t + 1000 * π
            else t
  ((x, y), { s with t := t2, last_pos := s.curr_pos, curr_pos := (x, y) })

/-- The constructor of EllipticTrajectory: phase 0, one zero-step evaluation
so that last_pos and curr_pos both hold the position at t = 0. -/
def EllipticTrajectory.init (rotation x_length y_length : ℝ) :
    EllipticTrajectory :=
  let s0 : EllipticTrajectory :=
    { rotation := rotation, x_length := x_length, y_length := y_length,
      t := 0, curr_pos := (0, 0), last_pos := (0, 0) }
  let r := s0.get_next_position 0
  let s1 := { r.2 with last_pos := r.1 }
  { s1 with curr_pos := s1.last_pos }

/-- EllipticTrajectory.get_delta: step once and return (curr - last). -/
def EllipticTrajectory.get_delta (s : EllipticTrajectory) (step : ℝ) :
    (ℝ × ℝ) × EllipticTrajectory :=
  let s2 := (s.get_next_position step).2
  ((s2.curr_pos.1 - s2.last_pos.1, s2.curr_pos.2 - s2.last_pos.2), s2)

end Elliptic

section Interpolated

/-- State of the interpolated trajectory.  Nodes are kept as lists of
rationals so that the arity (three fields) check of the constructor is a
real check, as in the source where nodes are tuples of any length. -/
structure InterpolatedTrajectory where
  nodes : List (List ℚ)
  index : ℕ
  next_index : ℕ
  time : ℚ
  last_pos : ℚ × ℚ
  curr_pos : ℚ × ℚ
  target_time : ℚ
  deriving DecidableEq, Repr

/-- Field k of node i, with 0 as the (unreachable on validated states)
out-of-range default. -/
def nodeVal (nodes : List (List ℚ)) (i k : ℕ) : ℚ :=
  (nodes.getD i []).getD k 0

/-- The validation loop of the constructor: raises on a node whose arity is
not 3, otherwise reports whether some node has non-zero time. -/
def checkNodes : List (List ℚ) → Except String Bool
  | [] => Except.ok false
  | node :: rest =>
    if node.length ≠ 3 then Except.error "Expected 3 values in node!"
    else
      match checkNodes rest with
      | Except.error e => Except.error e
      | Except.ok found => Except.ok ((node.getD 2 0 != 0) || found)

/-- The constructor of InterpolatedTrajectory: validate, then start at node
0 with zero elapsed time, both positions at node 0, and target time equal to
node 0's duration. -/
def InterpolatedTrajectory.init (nodes : List (List ℚ)) :
    Except String InterpolatedTrajectory :=
  match checkNodes nodes with
  | Except.error e => Except.error e
  | Except.ok found =>
    if !found then
      Except.error "List of nodes must contain at least one node with non-zero time!"
    else
      Except.ok
        { nodes := nodes
          index := 0
          next_index := if 0 + 1 ≥ nodes.length then 0 else 0 + 1
          time := 0
          last_pos := (nodeVal nodes 0 0, nodeVal nodes 0 1)
          curr_pos := (nodeVal nodes 0 0, nodeVal nodes 0 1)
          target_time := nodeVal nodes 0 2 }

/-- InterpolatedTrajectory._get_next_index. -/
def get_next_index (s : InterpolatedTrajectory) : ℕ :=
  if s.index + 1 ≥ s.nodes.length then 0 else s.index + 1

/-- InterpolatedTrajectory._go_to_next_index: shift index to next_index,
recompute next_index, reload the target time from the new current node. -/
def go_to_next_index (s : InterpolatedTrajectory) : InterpolatedTrajectory :=
  let s1 := { s with index := s.next_index }
  let s2 := { s1 with next_index := get_next_index s1 }
  { s2 with target_time := nodeVal s2.nodes s2.index 2 }

/-- The zero-duration skip loop at the top of get_next_position:
while target_time = 0, go to the next index.  Fuel-bounded. -/
def skipZeroTime : ℕ → InterpolatedTrajectory → Option InterpolatedTrajectory
  | 0, s => if s.target_time = 0 then none else some s
  | fuel + 1, s =>
    if s.target_time = 0 then skipZeroTime fuel (go_to_next_index s) else some s

/-- The overshoot loop of get_next_position: while the remaining step is at
least the current target time, consume the target time (clamping a negative
residue to zero) and go to the next index.  Fuel-bounded; returns the final
remaining step and state. -/
def overshoot : ℕ → ℚ → InterpolatedTrajectory →
    Option (ℚ × InterpolatedTrajectory)
  | 0, r, s => if r ≥ s.target_time then none else some (r, s)
  | fuel + 1, r, s =>
    if r ≥ s.target_time then
      let r1 := r - s.target_time
      let r2 := if r1 < 0 then 0 else r1
      overshoot fuel r2 (go_to_next_index s)
    else some (r, s)

/-- InterpolatedTrajectory.get_next_position: skip zero-duration segments,
consume the step (entering the overshoot loop when it crosses the segment
boundary), then linearly interpolate between the current and next node. -/
def get_next_position (fuel : ℕ) (s : InterpolatedTrajectory) (step : ℚ) :
    Option InterpolatedTrajectory :=
  match skipZeroTime fuel s with
  | none => none
  | some s1 =>
    match
      (if s1.time + step ≥ s1.target_time then
        match overshoot fuel (step - (s1.target_time - s1.time))
            (go_to_next_index s1) with
        | none => none
        | some (r, s2) => some { s2 with time := r }
      else some { s1 with time := s1.time + step }) with
    | none => none
    | some s3 =>
      let start_x := nodeVal s3.nodes s3.index 0
      let delta_x := nodeVal s3.nodes s3.next_index 0 - start_x
      let start_y := nodeVal s3.nodes s3.index 1
      let delta_y := nodeVal s3.nodes s3.next_index 1 - start_y
      some { s3 with
              last_pos := s3.curr_pos,
              curr_pos := (start_x + delta_x * s3.time / s3.target_time,
                           start_y + delta_y * s3.time / s3.target_time) }

/-- InterpolatedTrajectory.get_delta: step once and return (curr - last)
with the updated state. -/
def InterpolatedTrajectory.get_delta (fuel : ℕ) (s : InterpolatedTrajectory)
    (step : ℚ) : Option ((ℚ × ℚ) × InterpolatedTrajectory) :=
  match get_next_position fuel s step with
  | none => none
  | some s2 =>
    some ((s2.curr_pos.1 - s2.last_pos.1, s2.curr_pos.2 - s2.last_pos.2), s2)

/-- Advance an interpolated trajectory by a list of steps in order. -/
def advanceSeq (fuel : ℕ) (s : InterpolatedTrajectory) :
    List ℚ → Option InterpolatedTrajectory
  | [] => some s
  | step :: rest =>
    match get_next_position fuel s step with
    | none => none
    | some s1 => advanceSeq fuel s1 rest

end Interpolated

section Abstraction

/-- Duration field of node i. -/
def dur (nodes : List (List ℚ)) (i : ℕ) : ℚ := nodeVal nodes i 2

/-- Sum of the durations of the nodes before index i. -/
def prefixSum (nodes : List (List ℚ)) (i : ℕ) : ℚ :=
  ∑ j ∈ Finset.range i, dur nodes j

/-- Total duration of one cycle through the node list. -/
def totalTime (nodes : List (List ℚ)) : ℚ := prefixSum nodes nodes.length

/-- The WaypointList invariant of the spec: nonempty, all durations
nonnegative, at least one positive. -/
def ValidNodes (nodes : List (List ℚ)) : Prop :=
  nodes ≠ [] ∧ (∀ i < nodes.length, 0 ≤ dur nodes i) ∧
    ∃ i < nodes.length, 0 < dur nodes i

/-- Structural well-formedness of a trajectory state: index in range,
next_index and target_time consistent with the node list. -/
def WFBase (s : InterpolatedTrajectory) : Prop :=
  s.index < s.nodes.length ∧
  s.next_index = (if s.index + 1 ≥ s.nodes.length then 0 else s.index + 1) ∧
  s.target_time = dur s.nodes s.index

/-- Well-formedness of a reachable state (construction included): elapsed
time nonnegative and either inside the segment or zero (a pending skip). -/
def WF (s : InterpolatedTrajectory) : Prop :=
  WFBase s ∧ 0 ≤ s.time ∧ (s.time < s.target_time ∨ s.time = 0)

/-- Strong well-formedness, holding after every advance: elapsed time
strictly inside a positive-duration segment. -/
def WFS (s : InterpolatedTrajectory) : Prop :=
  WFBase s ∧ 0 ≤ s.time ∧ s.time < s.target_time

/-- Abstract phase of a state: time elapsed since the cycle began. -/
def phase (s : InterpolatedTrajectory) : ℚ :=
  prefixSum s.nodes s.index + s.time

/-- The interpolated position for segment index i and elapsed time t, as
computed at the end of get_next_position on a structurally well-formed
state. -/
def interpPos (nodes : List (List ℚ)) (i : ℕ) (t : ℚ) : ℚ × ℚ :=
  let j := if i + 1 ≥ nodes.length then 0 else i + 1
  (nodeVal nodes i 0 + (nodeVal nodes j 0 - nodeVal nodes i 0) * t / dur nodes i,
   nodeVal nodes i 1 + (nodeVal nodes j 1 - nodeVal nodes i 1) * t / dur nodes i)

/-- Sum of j consecutive durations starting (cyclically) at index i. -/
def cycSum (nodes : List (List ℚ)) (i j : ℕ) : ℚ :=
  ∑ l ∈ Finset.range j, dur nodes ((i + l) % nodes.length)

end Abstraction

noncomputable section Composition

/-- The elliptic sampler advanced on its own for N iterations with a fixed
step: final state and the list of its deltas in iteration order. -/
def childRun (estep : ℝ) : ℕ → EllipticTrajectory →
    EllipticTrajectory × List (ℝ × ℝ)
  | 0, e => (e, [])
  | N + 1, e =>
    let r := e.get_delta estep
    let rest := childRun estep N r.2
    (rest.1, r.1 :: rest.2)

/-- The parent interpolator advanced on its own for N iterations with a
fixed step: final state and the list of its deltas in iteration order. -/
def parentRun (fuel : ℕ) (pstep : ℚ) : ℕ → InterpolatedTrajectory →
    Option (InterpolatedTrajectory × List (ℚ × ℚ))
  | 0, p => some (p, [])
  | N + 1, p =>
    match p.get_delta fuel pstep with
    | none => none
    | some (d, p2) =>
      match parentRun fuel pstep N p2 with
      | none => none
      | some (pf, ds) => some (pf, d :: ds)

/-- The sampling loop of main: in each iteration advance the parent once by
its step, advance each elliptic child once by its step, and emit for each
child the componentwise sum of the parent delta and that child's delta.
Returns the final states and the two emitted streams in iteration order. -/
def runLoop (fuel : ℕ) (pstep : ℚ) (estep : ℝ) :
    ℕ → InterpolatedTrajectory → EllipticTrajectory → EllipticTrajectory →
    Option (InterpolatedTrajectory × EllipticTrajectory × EllipticTrajectory ×
      List (ℝ × ℝ) × List (ℝ × ℝ))
  | 0, p, e1, e2 => some (p, e1, e2, [], [])
  | N + 1, p, e1, e2 =>
    match p.get_delta fuel pstep with
    | none => none
    | some (pd, p2) =>
      let r1 := e1.get_delta estep
      let r2 := e2.get_delta estep
      match runLoop fuel pstep estep N p2 r1.2 r2.2 with
      | none => none
      | some (pf, e1f, e2f, out1, out2) =>
        some (pf, e1f, e2f,
          ((pd.1 : ℝ) + r1.1.1, (pd.2 : ℝ) + r1.1.2) :: out1,
          ((pd.1 : ℝ) + r2.1.1, (pd.2 : ℝ) + r2.1.2) :: out2)

/-- Componentwise sum of a parent delta and a child delta, as emitted by the
sampling loop. -/
def composeDelta (pd : ℚ × ℚ) (cd : ℝ × ℝ) : ℝ × ℝ :=
  ((pd.1 : ℝ) + cd.1, (pd.2 : ℝ) + cd.2)

end Composition

section EllipticClaims

open Real

/-- The position sampled by get_next_position depends on the accumulated
phase only through its value modulo 2·π, given equal ellipse parameters. -/
lemma sampled_pos_congr (s s' : EllipticTrajectory) (step step' : ℝ)
    (hrot : s'.rotation = s.rotation) (hx : s'.x_length = s.x_length)
    (hy : s'.y_length = s.y_length)
    (hph : ∃ k : ℤ, (s'.t + step') - (s.t + step) = 2 * π * k) :
    (s'.get_next_position step').1 = (s.get_next_position step).1 := by
  obtain ⟨k, hk⟩ := hph
  have ht : s'.t + step' = (s.t + step) + (k : ℝ) * (2 * π) := by linarith
  simp only [EllipticTrajectory.get_next_position, ht,
    Real.cos_add_int_mul_two_pi, Real.sin_add_int_mul_two_pi, hrot, hx, hy]

/-- C6: if the phase is within (-1000·π, 1000·π] and the step magnitude is
at most the wrap bound 1000·π, then after one advance the phase is again
within (-1000·π, 1000·π], and it is obtained from t + step by at most one
correction: subtracting 1000·π when t + step ≥ 1000·π, adding 1000·π when
t + step ≤ -1000·π, and doing nothing otherwise. -/
theorem claim_C6 (s : EllipticTrajectory) (step : ℝ)
    (h1 : -(1000 * π) < s.t) (h2 : s.t ≤ 1000 * π)
    (h3 : |step| ≤ 1000 * π) :
    (-(1000 * π) < ((s.get_next_position step).2).t ∧
      ((s.get_next_position step).2).t ≤ 1000 * π) ∧
    ((s.get_next_position step).2).t =
      (if s.t + step ≥ 1000 * π then s.t + step - 1000 * π
       else if s.t + step ≤ -(1000 * π) then s.t + step + 1000 * π
       else s.t + step) := by
  have hpi := Real.pi_pos
  obtain ⟨hlo, hhi⟩ := abs_le.mp h3
  have hform : ((s.get_next_position step).2).t =
      (if s.t + step ≥ 1000 * π then s.t + step - 1000 * π
       else if s.t + step ≤ -(1000 * π) then s.t + step + 1000 * π
       else s.t + step) := by
    simp only [EllipticTrajectory.get_next_position, neg_mul]
  refine ⟨?_, hform⟩
  rw [hform]
  split
  · constructor <;> nlinarith
  · split
    · constructor <;> nlinarith
    · constructor <;> nlinarith

/-- Witness for C6 at a concrete state with phase 0 and step 1. -/
theorem claim_C6_witness :
    (-(1000 * π) <
        ((EllipticTrajectory.mk 0 1 1 0 (1, 0) (1, 0)).get_next_position 1).2.t ∧
      ((EllipticTrajectory.mk 0 1 1 0 (1, 0) (1, 0)).get_next_position 1).2.t ≤
        1000 * π) ∧
    ((EllipticTrajectory.mk 0 1 1 0 (1, 0) (1, 0)).get_next_position 1).2.t =
      (if (0 : ℝ) + 1 ≥ 1000 * π then (0 : ℝ) + 1 - 1000 * π
       else if (0 : ℝ) + 1 ≤ -(1000 * π) then (0 : ℝ) + 1 + 1000 * π
       else (0 : ℝ) + 1) :=
  claim_C6 (EllipticTrajectory.mk 0 1 1 0 (1, 0) (1, 0)) 1
    (by show -(1000 * π) < (0 : ℝ); nlinarith [Real.pi_pos])
    (by show (0 : ℝ) ≤ 1000 * π; nlinarith [Real.pi_pos])
    (by rw [abs_one]; nlinarith [Real.pi_gt_three])

/-- C7: the sampled position is 2·π-periodic in the accumulated phase: two
advances whose accumulated phases (t + step) differ by an exact integer
multiple of 2·π sample identical positions, and replacing the stored phase
by its 1000·π-wrapped value (in either direction) does not change any
subsequently sampled position. -/
theorem claim_C7 :
    (∀ (s s' : EllipticTrajectory) (step step' : ℝ),
      s'.rotation = s.rotation → s'.x_length = s.x_length →
      s'.y_length = s.y_length →
      (∃ k : ℤ, (s'.t + step') - (s.t + step) = 2 * π * k) →
      (s'.get_next_position step').1 = (s.get_next_position step).1) ∧
    (∀ (s : EllipticTrajectory) (step : ℝ),
      (({ s with t := s.t - 1000 * π } :
          EllipticTrajectory).get_next_position step).1 =
        (s.get_next_position step).1 ∧
      (({ s with t := s.t + 1000 * π } :
          EllipticTrajectory).get_next_position step).1 =
        (s.get_next_position step).1) := by
  refine ⟨fun s s' step step' hrot hx hy hph => ?_, fun s step => ⟨?_, ?_⟩⟩
  · exact sampled_pos_congr s s' step step' hrot hx hy hph
  · exact sampled_pos_congr s _ step step rfl rfl rfl
      ⟨-500, by push_cast; ring⟩
  · exact sampled_pos_congr s _ step step rfl rfl rfl
      ⟨500, by push_cast; ring⟩

/-- Witness for C7: phases 0 and 2·π sample the same position. -/
theorem claim_C7_witness :
    ((EllipticTrajectory.mk 0 1 1 (2 * π) (0, 0) (0, 0)).get_next_position 0).1 =
      ((EllipticTrajectory.mk 0 1 1 0 (0, 0) (0, 0)).get_next_position 0).1 :=
  claim_C7.1 (EllipticTrajectory.mk 0 1 1 0 (0, 0) (0, 0))
    (EllipticTrajectory.mk 0 1 1 (2 * π) (0, 0) (0, 0)) 0 0 rfl rfl rfl
    ⟨1, by ring⟩

/-- C8: one call of get_delta adds the step to the phase (followed by the
single wraparound correction), computes the new position by the
rotated-ellipse parametric form at phase t + step, and returns exactly the
new position minus the position before the step; it is total (no error
condition). -/
theorem claim_C8 (s : EllipticTrajectory) (step : ℝ) :
    (s.get_delta step).1 =
      ((s.x_length * Real.cos (s.t + step) * Real.cos s.rotation -
          s.y_length * Real.sin (s.t + step) * Real.sin s.rotation) -
        s.curr_pos.1,
       (s.x_length * Real.cos (s.t + step) * Real.sin s.rotation +
          s.y_length * Real.sin (s.t + step) * Real.cos s.rotation) -
        s.curr_pos.2) ∧
    (s.get_delta step).2.curr_pos =
      (s.x_length * Real.cos (s.t + step) * Real.cos s.rotation -
        s.y_length * Real.sin (s.t + step) * Real.sin s.rotation,
       s.x_length * Real.cos (s.t + step) * Real.sin s.rotation +
        s.y_length * Real.sin (s.t + step) * Real.cos s.rotation) ∧
    (s.get_delta step).2.last_pos = s.curr_pos ∧
    (s.get_delta step).2.t =
      (if s.t + step ≥ 1000 * π then s.t + step - 1000 * π
       else if s.t + step ≤ -(1000 * π) then s.t + step + 1000 * π
       else s.t + step) := by
  simp only [EllipticTrajectory.get_delta, EllipticTrajectory.get_next_position,
    neg_mul]
  refine ⟨?_, ?_, ?_, ?_⟩ <;> trivial

end EllipticClaims

section ConstructionClaims

/-- C10: constructing an InterpolatedTrajectory from the empty node list
fails with the no-nonzero-time ValueError (the validation loop finds no node
with non-zero time). -/
theorem claim_C10 :
    InterpolatedTrajectory.init [] =
      Except.error
        "List of nodes must contain at least one node with non-zero time!" :=
  rfl

end ConstructionClaims

section CompositionClaims

/-- C9: the sampling loop emits, for each elliptic sampler and each
iteration, exactly the componentwise sum of the parent interpolator's delta
for that iteration (the parent advanced once per iteration, shared by both
children) and that sampler's own delta, in iteration order: the emitted
streams are the zipWith of the independently computed parent and child
delta streams. -/
theorem claim_C9 (fuel : ℕ) (pstep : ℚ) (estep : ℝ) (N : ℕ)
    (p : InterpolatedTrajectory) (e1 e2 : EllipticTrajectory) :
    runLoop fuel pstep estep N p e1 e2 =
      Option.map (fun pr =>
        (pr.1, (childRun estep N e1).1, (childRun estep N e2).1,
         List.zipWith composeDelta pr.2 (childRun estep N e1).2,
         List.zipWith composeDelta pr.2 (childRun estep N e2).2))
        (parentRun fuel pstep N p) := by
  induction N generalizing p e1 e2 with
  | zero => simp [runLoop, parentRun, childRun]
  | succ N ih =>
    simp only [runLoop, parentRun, childRun]
    cases hpd : p.get_delta fuel pstep with
    | none => simp
    | some dp2 =>
      obtain ⟨pd, p2⟩ := dp2
      dsimp only
      rw [ih]
      cases hpr : parentRun fuel pstep N p2 with
      | none => simp
      | some pfds =>
        obtain ⟨pf, ds⟩ := pfds
        simp [composeDelta, List.zipWith]

end CompositionClaims

section InterpolatedLemmas

lemma prefixSum_succ (nodes : List (List ℚ)) (i : ℕ) :
    prefixSum nodes (i + 1) = prefixSum nodes i + dur nodes i :=
  Finset.sum_range_succ _ _

lemma prefixSum_mono (nodes : List (List ℚ))
    (h : ∀ j < nodes.length, 0 ≤ dur nodes j) {a b : ℕ}
    (hab : a ≤ b) (hb : b ≤ nodes.length) :
    prefixSum nodes a ≤ prefixSum nodes b :=
  Finset.sum_le_sum_of_subset_of_nonneg (Finset.range_subset.mpr hab)
    (fun j hj _ => h j (lt_of_lt_of_le (Finset.mem_range.mp hj) hb))

lemma prefixSum_nonneg (nodes : List (List ℚ))
    (h : ∀ j < nodes.length, 0 ≤ dur nodes j) {i : ℕ}
    (hi : i ≤ nodes.length) : 0 ≤ prefixSum nodes i := by
  have h0 : prefixSum nodes 0 = 0 := by simp [prefixSum]
  have := prefixSum_mono nodes h (Nat.zero_le i) hi
  linarith [this, h0.symm.le]

lemma prefixSum_add_dur_le (nodes : List (List ℚ))
    (h : ∀ j < nodes.length, 0 ≤ dur nodes j) {i : ℕ}
    (hi : i < nodes.length) :
    prefixSum nodes i + dur nodes i ≤ totalTime nodes := by
  rw [← prefixSum_succ]
  exact prefixSum_mono nodes h hi le_rfl

lemma totalTime_pos (nodes : List (List ℚ)) (hv : ValidNodes nodes) :
    0 < totalTime nodes := by
  obtain ⟨-, hd, i, hi, hpos⟩ := hv
  have hle : dur nodes i ≤ totalTime nodes :=
    Finset.single_le_sum (fun j hj => hd j (Finset.mem_range.mp hj))
      (Finset.mem_range.mpr hi)
  linarith

lemma mod_step {i n : ℕ} (h : i < n) :
    (if i + 1 ≥ n then 0 else i + 1) = (i + 1) % n := by
  rcases Nat.lt_or_ge (i + 1) n with h2 | h2
  · rw [Nat.mod_eq_of_lt h2]
    simp [Nat.not_le.mpr h2]
  · have h3 : i + 1 = n := by omega
    simp [h3]

lemma go_next_fields (s : InterpolatedTrajectory) :
    (go_to_next_index s).nodes = s.nodes ∧
    (go_to_next_index s).time = s.time ∧
    (go_to_next_index s).curr_pos = s.curr_pos ∧
    (go_to_next_index s).last_pos = s.last_pos ∧
    (go_to_next_index s).index = s.next_index ∧
    (go_to_next_index s).target_time = dur s.nodes s.next_index ∧
    (go_to_next_index s).next_index =
      (if s.next_index + 1 ≥ s.nodes.length then 0 else s.next_index + 1) := by
  simp [go_to_next_index, get_next_index, dur]

lemma go_next_wf (s : InterpolatedTrajectory) (h : WFBase s) :
    WFBase (go_to_next_index s) ∧
    (go_to_next_index s).index = (s.index + 1) % s.nodes.length := by
  obtain ⟨hidx, hnext, -⟩ := h
  have hn : 0 < s.nodes.length := lt_of_le_of_lt (Nat.zero_le s.index) hidx
  obtain ⟨hnodes, -, -, -, hi, ht, hni⟩ := go_next_fields s
  have hmod : (go_to_next_index s).index = (s.index + 1) % s.nodes.length := by
    rw [hi, hnext, mod_step hidx]
  refine ⟨⟨?_, ?_, ?_⟩, hmod⟩
  · rw [hmod, hnodes]
    exact Nat.mod_lt _ hn
  · rw [hni, hnodes, hi]
  · rw [ht, hnodes, hi]

lemma prefixSum_cyc_succ (nodes : List (List ℚ)) {i : ℕ}
    (hi : i < nodes.length) :
    ∃ c : ℤ, 0 ≤ c ∧ c ≤ 1 ∧
      prefixSum nodes ((i + 1) % nodes.length) =
        prefixSum nodes i + dur nodes i - c * totalTime nodes := by
  rcases Nat.lt_or_ge (i + 1) nodes.length with h2 | h2
  · refine ⟨0, le_rfl, zero_le_one, ?_⟩
    rw [Nat.mod_eq_of_lt h2, prefixSum_succ]
    ring
  · have h3 : i + 1 = nodes.length := by omega
    refine ⟨1, zero_le_one, le_rfl, ?_⟩
    have : prefixSum nodes i + dur nodes i = totalTime nodes := by
      rw [← prefixSum_succ, h3, totalTime]
    have h0 : prefixSum nodes 0 = 0 := by simp [prefixSum]
    rw [h3, Nat.mod_self, h0, ← this]
    ring

end InterpolatedLemmas

section LoopLemmas

/-- Whenever the zero-duration skip loop completes within its fuel, it
preserves the nodes, elapsed time and positions, reaches a non-zero target
time, keeps well-formedness, and changes the phase by a whole number of
cycles (each skipped segment has zero duration). -/
lemma skip_spec : ∀ (fuel : ℕ) (s s2 : InterpolatedTrajectory),
    skipZeroTime fuel s = some s2 → WF s →
    s2.nodes = s.nodes ∧ s2.time = s.time ∧ s2.curr_pos = s.curr_pos ∧
    s2.last_pos = s.last_pos ∧ WF s2 ∧ s2.target_time ≠ 0 ∧
    ∃ k : ℤ, phase s2 = phase s - k * totalTime s.nodes := by
  intro fuel
  induction fuel with
  | zero =>
    intro s s2 h hwf
    rw [skipZeroTime] at h
    split at h
    · exact absurd h (by simp)
    · obtain rfl := Option.some.inj h
      exact ⟨rfl, rfl, rfl, rfl, hwf, by assumption, 0, by simp⟩
  | succ fuel ih =>
    intro s s2 h hwf
    rw [skipZeroTime] at h
    split at h
    case isTrue htz =>
      have htime0 : s.time = 0 := by
        rcases hwf.2.2 with h1 | h1
        · exact absurd (lt_of_le_of_lt hwf.2.1 (htz ▸ h1)) (lt_irrefl 0)
        · exact h1
      obtain ⟨hbase, hmod⟩ := go_next_wf s hwf.1
      obtain ⟨hnodes, htime, hcurr, hlast, -, -, -⟩ :=
        go_next_fields s
      have hwfg : WF (go_to_next_index s) := by
        refine ⟨hbase, ?_, Or.inr ?_⟩ <;> rw [htime, htime0]
      obtain ⟨h1, h2, h3, h4, h5, h6, k, hk⟩ := ih _ _ h hwfg
      obtain ⟨c, -, -, hc⟩ := prefixSum_cyc_succ s.nodes hwf.1.1
      have hdur0 : dur s.nodes s.index = 0 := by
        rw [← hwf.1.2.2]; exact htz
      refine ⟨h1.trans hnodes, h2.trans htime, h3.trans hcurr,
        h4.trans hlast, h5, h6, k + c, ?_⟩
      have hphg : phase (go_to_next_index s) = phase s - c * totalTime s.nodes := by
        rw [phase, phase, hnodes, htime, hmod, hc, hdur0]
        ring
      rw [hk, hnodes, hphg]
      push_cast
      ring
    case isFalse hn =>
      obtain rfl := Option.some.inj h
      exact ⟨rfl, rfl, rfl, rfl, hwf, hn, 0, by simp⟩

/-- Whenever the overshoot loop completes within its fuel, it preserves the
nodes, elapsed time and positions, keeps structural well-formedness, ends
with a nonnegative remaining step strictly below the (hence positive)
current target time, and the abstract phase quantity prefix + remaining is
changed only by a whole number of cycles. -/
lemma overshoot_spec : ∀ (fuel : ℕ) (r : ℚ) (s : InterpolatedTrajectory)
    (r2 : ℚ) (s2 : InterpolatedTrajectory),
    overshoot fuel r s = some (r2, s2) → WFBase s →
    (∀ j < s.nodes.length, 0 ≤ dur s.nodes j) → 0 ≤ r →
    s2.nodes = s.nodes ∧ s2.time = s.time ∧ s2.curr_pos = s.curr_pos ∧
    s2.last_pos = s.last_pos ∧ WFBase s2 ∧ 0 ≤ r2 ∧ r2 < s2.target_time ∧
    ∃ k : ℤ, prefixSum s.nodes s2.index + r2 =
      prefixSum s.nodes s.index + r - k * totalTime s.nodes := by
  intro fuel
  induction fuel with
  | zero =>
    intro r s r2 s2 h hbase hd hr
    rw [overshoot] at h
    split at h
    · exact absurd h (by simp)
    case isFalse hlt =>
      obtain ⟨rfl, rfl⟩ := Prod.mk.injEq .. ▸ Option.some.inj h
      exact ⟨rfl, rfl, rfl, rfl, hbase, hr, lt_of_not_ge hlt, 0, by simp⟩
  | succ fuel ih =>
    intro r s r2 s2 h hbase hd hr
    rw [overshoot] at h
    split at h
    case isTrue hge =>
      have hr1 : 0 ≤ r - s.target_time := sub_nonneg.mpr hge
      dsimp only at h
      rw [if_neg (not_lt.mpr hr1)] at h
      obtain ⟨hbaseg, hmod⟩ := go_next_wf s hbase
      obtain ⟨hnodes, htime, hcurr, hlast, -, -, -⟩ := go_next_fields s
      have hdg : ∀ j < (go_to_next_index s).nodes.length,
          0 ≤ dur (go_to_next_index s).nodes j := by
        rw [hnodes]; exact hd
      obtain ⟨h1, h2, h3, h4, h5, h6, h7, k, hk⟩ :=
        ih _ _ _ _ h hbaseg hdg hr1
      obtain ⟨c, -, -, hc⟩ := prefixSum_cyc_succ s.nodes hbase.1
      refine ⟨h1.trans hnodes, h2.trans htime, h3.trans hcurr,
        h4.trans hlast, h5, h6, h7, k + c, ?_⟩
      rw [hnodes] at hk
      rw [hk, hmod, hc, ← hbase.2.2]
      push_cast
      ring
    case isFalse hlt =>
      obtain ⟨rfl, rfl⟩ := Prod.mk.injEq .. ▸ Option.some.inj h
      exact ⟨rfl, rfl, rfl, rfl, hbase, hr, lt_of_not_ge hlt, 0, by simp⟩

end LoopLemmas

section AdvanceSpec

/-- The interpolation formula at the end of get_next_position agrees with
interpPos on structurally well-formed states. -/
lemma interp_eq (s3 : InterpolatedTrajectory) (hbase : WFBase s3) (t : ℚ) :
    (nodeVal s3.nodes s3.index 0 +
      (nodeVal s3.nodes s3.next_index 0 - nodeVal s3.nodes s3.index 0) * t /
        s3.target_time,
     nodeVal s3.nodes s3.index 1 +
      (nodeVal s3.nodes s3.next_index 1 - nodeVal s3.nodes s3.index 1) * t /
        s3.target_time) =
    interpPos s3.nodes s3.index t := by
  dsimp only [interpPos]
  rw [← hbase.2.1, ← hbase.2.2]

/-- Specification of one successful call of get_next_position from a
reachable well-formed state on a valid node list with a nonnegative step:
the node list is unchanged, the final state is strongly well formed (elapsed
time strictly inside a positive-duration segment), last_pos is the previous
position, curr_pos is the linear interpolation at the final index and
elapsed time, and the abstract phase is the old phase plus the step, brought
back into one cycle by subtracting a whole number of total cycle times. -/
lemma adv_spec (fuel : ℕ) (s s2 : InterpolatedTrajectory) (step : ℚ)
    (h : get_next_position fuel s step = some s2)
    (hv : ValidNodes s.nodes) (hwf : WF s) (hstep : 0 ≤ step) :
    s2.nodes = s.nodes ∧ WFS s2 ∧ s2.last_pos = s.curr_pos ∧
    s2.curr_pos = interpPos s2.nodes s2.index s2.time ∧
    0 ≤ phase s2 ∧ phase s2 < totalTime s.nodes ∧
    ∃ k : ℤ, phase s2 = phase s + step - k * totalTime s.nodes := by
  rw [get_next_position] at h
  cases hskip : skipZeroTime fuel s with
  | none => rw [hskip] at h; exact absurd h (by simp)
  | some s1 =>
    rw [hskip] at h
    dsimp only at h
    obtain ⟨hn1, ht1, hc1, hl1, hwf1, htz1, k0, hph1⟩ :=
      skip_spec fuel s s1 hskip hwf
    have hd : ∀ j < s.nodes.length, 0 ≤ dur s.nodes j := hv.2.1
    have hd1 : ∀ j < s1.nodes.length, 0 ≤ dur s1.nodes j := by
      rw [hn1]; exact hd
    have hdnn : 0 ≤ s1.target_time := by
      rw [hwf1.1.2.2]; exact hd1 _ hwf1.1.1
    have hdpos : 0 < s1.target_time := lt_of_le_of_ne hdnn (Ne.symm htz1)
    by_cases hge : s1.time + step ≥ s1.target_time
    · rw [if_pos hge] at h
      cases hov : overshoot fuel (step - (s1.target_time - s1.time))
          (go_to_next_index s1) with
      | none => rw [hov] at h; exact absurd h (by simp)
      | some rs =>
        obtain ⟨r, s3⟩ := rs
        rw [hov] at h
        dsimp only at h
        obtain rfl := (Option.some.inj h).symm
        obtain ⟨hbaseg, hmodg⟩ := go_next_wf s1 hwf1.1
        obtain ⟨hgn, hgt, hgc, hgl, -, -, -⟩ := go_next_fields s1
        have hdg : ∀ j < (go_to_next_index s1).nodes.length,
            0 ≤ dur (go_to_next_index s1).nodes j := by
          rw [hgn]; exact hd1
        have hr0 : 0 ≤ step - (s1.target_time - s1.time) := by linarith
        obtain ⟨ho1, -, ho3, -, ho5, ho6, ho7, k1, hk1⟩ :=
          overshoot_spec fuel _ _ _ _ hov hbaseg hdg hr0
        have hsn : s3.nodes = s.nodes := ho1.trans (hgn.trans hn1)
        obtain ⟨c, -, -, hc⟩ := prefixSum_cyc_succ s1.nodes hwf1.1.1
        rw [hgn] at hk1
        rw [hmodg, hc, ← hwf1.1.2.2] at hk1
        -- hk1 : prefixSum s1.nodes s3.index + r =
        --   (prefixSum s1.nodes s1.index + s1.target_time - c * T) +
        --   (step - (s1.target_time - s1.time)) - k1 * T
        refine ⟨hsn, ⟨ho5, ho6, ho7⟩, ?_, ?_, ?_, ?_, ?_⟩
        · exact ho3.trans (hgc.trans hc1)
        · exact interp_eq s3 ho5 r
        · show 0 ≤ prefixSum s3.nodes s3.index + r
          refine add_nonneg (prefixSum_nonneg s3.nodes ?_ ho5.1.le) ho6
          rw [hsn]; exact hd
        · show prefixSum s3.nodes s3.index + r < totalTime s.nodes
          have hb : prefixSum s3.nodes s3.index + dur s3.nodes s3.index ≤
              totalTime s3.nodes := by
            refine prefixSum_add_dur_le s3.nodes ?_ ho5.1
            rw [hsn]; exact hd
          rw [hsn] at hb
          have : r < dur s3.nodes s3.index := by rw [← ho5.2.2]; exact ho7
          rw [hsn] at this ⊢
          linarith
        · refine ⟨k0 + c + k1, ?_⟩
          show prefixSum s3.nodes s3.index + r =
            phase s + step - (k0 + c + k1 : ℤ) * totalTime s.nodes
          have hphase1 : phase s1 = phase s - k0 * totalTime s.nodes := hph1
          rw [hsn]
          rw [hn1] at hk1
          have hphase1x : prefixSum s.nodes s1.index + s1.time = phase s1 := by
            rw [phase, hn1]
          push_cast
          rw [hk1]
          rw [phase] at hphase1 hphase1x
          rw [hn1] at hphase1 hphase1x
          linarith
    · rw [if_neg hge] at h
      dsimp only at h
      obtain rfl := (Option.some.inj h).symm
      have hlt : s1.time + step < s1.target_time := lt_of_not_ge hge
      have htnn : 0 ≤ s1.time + step := add_nonneg hwf1.2.1 hstep
      refine ⟨hn1, ⟨⟨hwf1.1.1, hwf1.1.2.1, hwf1.1.2.2⟩, htnn, hlt⟩,
        hc1, ?_, ?_, ?_, ?_⟩
      · exact interp_eq { s1 with time := s1.time + step }
          ⟨hwf1.1.1, hwf1.1.2.1, hwf1.1.2.2⟩ (s1.time + step)
      · show 0 ≤ prefixSum s1.nodes s1.index + (s1.time + step)
        refine add_nonneg (prefixSum_nonneg s1.nodes hd1 hwf1.1.1.le) htnn
      · show prefixSum s1.nodes s1.index + (s1.time + step) < totalTime s.nodes
        have hb : prefixSum s1.nodes s1.index + dur s1.nodes s1.index ≤
            totalTime s1.nodes := prefixSum_add_dur_le s1.nodes hd1 hwf1.1.1
        rw [hn1] at hb
        have hlt2 : s1.time + step < dur s1.nodes s1.index := by
          rw [← hwf1.1.2.2]; exact hlt
        rw [hn1] at hlt2 ⊢
        linarith
      · refine ⟨k0, ?_⟩
        show prefixSum s1.nodes s1.index + (s1.time + step) =
          phase s + step - k0 * totalTime s.nodes
        have := hph1
        rw [phase, phase] at this
        rw [hn1] at this
        rw [hn1, phase]
        linarith

end AdvanceSpec

section SequenceLemmas

lemma wfs_wf (s : InterpolatedTrajectory) (h : WFS s) : WF s :=
  ⟨h.1, h.2.1, Or.inl h.2.2⟩

/-- Specification of a successful sequence of advances: nodes unchanged,
phase accumulated modulo whole cycles, and (when at least one advance
happened) a strongly well-formed final state with interpolated position and
phase inside one cycle. -/
lemma seq_spec : ∀ (steps : List ℚ) (fuel : ℕ)
    (s s2 : InterpolatedTrajectory),
    ValidNodes s.nodes → WF s → (∀ x ∈ steps, 0 ≤ x) →
    advanceSeq fuel s steps = some s2 →
    s2.nodes = s.nodes ∧
    (∃ k : ℤ, phase s2 = phase s + steps.sum - k * totalTime s.nodes) ∧
    (steps ≠ [] → WFS s2 ∧
      s2.curr_pos = interpPos s2.nodes s2.index s2.time ∧
      0 ≤ phase s2 ∧ phase s2 < totalTime s.nodes) := by
  intro steps
  induction steps with
  | nil =>
    intro fuel s s2 hv hwf hpos h
    rw [advanceSeq] at h
    obtain rfl := Option.some.inj h
    exact ⟨rfl, ⟨0, by simp⟩, fun hne => absurd rfl hne⟩
  | cons a rest ih =>
    intro fuel s s2 hv hwf hpos h
    rw [advanceSeq] at h
    cases hadv : get_next_position fuel s a with
    | none => rw [hadv] at h; exact absurd h (by simp)
    | some s1 =>
      rw [hadv] at h
      dsimp only at h
      have ha : 0 ≤ a := hpos a (List.mem_cons_self a rest)
      have hrest : ∀ x ∈ rest, 0 ≤ x := fun x hx =>
        hpos x (List.mem_cons_of_mem a hx)
      obtain ⟨hn1, hwfs1, -, hcp1, hph1a, hph1b, k1, hk1⟩ :=
        adv_spec fuel s s1 a hadv hv hwf ha
      have hv1 : ValidNodes s1.nodes := by rw [hn1]; exact hv
      obtain ⟨hn2, ⟨k2, hk2⟩, hne⟩ := ih fuel s1 s2 hv1 (wfs_wf s1 hwfs1) hrest h
      refine ⟨hn2.trans hn1, ⟨k1 + k2, ?_⟩, fun _ => ?_⟩
      · rw [List.sum_cons, hk2, hk1, hn1]
        push_cast
        ring
      · rcases rest with _ | ⟨b, rest2⟩
        · rw [advanceSeq] at h
          obtain rfl := Option.some.inj h
          exact ⟨hwfs1, hcp1, hph1a, hph1b⟩
        · obtain ⟨hw, hcp, hpa, hpb⟩ := hne (by simp)
          rw [hn1] at hpb
          exact ⟨hw, hcp, hpa, hpb⟩

/-- Two values inside one cycle that differ by a whole number of cycles are
equal. -/
lemma mod_unique {T p q : ℚ} (hT : 0 < T) (hp0 : 0 ≤ p) (hpT : p < T)
    (hq0 : 0 ≤ q) (hqT : q < T) (hpq : ∃ z : ℤ, p - q = z * T) : p = q := by
  obtain ⟨z, hz⟩ := hpq
  have hz1 : (z : ℚ) < 1 := by nlinarith
  have hz2 : (-1 : ℚ) < (z : ℚ) := by nlinarith
  have a1 : z < 1 := by exact_mod_cast hz1
  have a2 : -1 < z := by exact_mod_cast hz2
  have hz0 : z = 0 := by omega
  rw [hz0] at hz
  push_cast at hz
  linarith

/-- The positive-duration segment containing a given phase is unique. -/
lemma seg_unique (nodes : List (List ℚ))
    (hd : ∀ j < nodes.length, 0 ≤ dur nodes j) {i j : ℕ} {ti tj : ℚ}
    (hi : i < nodes.length) (hj : j < nodes.length)
    (hti0 : 0 ≤ ti) (hti : ti < dur nodes i)
    (htj0 : 0 ≤ tj) (htj : tj < dur nodes j)
    (heq : prefixSum nodes i + ti = prefixSum nodes j + tj) :
    i = j ∧ ti = tj := by
  rcases lt_trichotomy i j with hij | hij | hij
  · exfalso
    have h1 : prefixSum nodes (i + 1) ≤ prefixSum nodes j :=
      prefixSum_mono nodes hd hij hj.le
    rw [prefixSum_succ] at h1
    linarith
  · subst hij
    exact ⟨rfl, by linarith⟩
  · exfalso
    have h1 : prefixSum nodes (j + 1) ≤ prefixSum nodes i :=
      prefixSum_mono nodes hd hij hi.le
    rw [prefixSum_succ] at h1
    linarith

/-- On a fixed valid node list, a strongly well-formed state is determined
by its phase: index and elapsed time are functions of it. -/
lemma state_from_phase (nodes : List (List ℚ))
    (hd : ∀ j < nodes.length, 0 ≤ dur nodes j)
    (s1 s2 : InterpolatedTrajectory) (h1 : WFS s1) (h2 : WFS s2)
    (hn1 : s1.nodes = nodes) (hn2 : s2.nodes = nodes)
    (hph : phase s1 = phase s2) : s1.index = s2.index ∧ s1.time = s2.time := by
  have ht1 : s1.time < dur nodes s1.index := by
    rw [← hn1, ← h1.1.2.2]; exact h1.2.2
  have ht2 : s2.time < dur nodes s2.index := by
    rw [← hn2, ← h2.1.2.2]; exact h2.2.2
  have heq : prefixSum nodes s1.index + s1.time =
      prefixSum nodes s2.index + s2.time := by
    rw [phase, phase, hn1, hn2] at hph
    exact hph
  exact seg_unique nodes hd (hn1 ▸ h1.1.1) (hn2 ▸ h2.1.1)
    h1.2.1 ht1 h2.2.1 ht2 heq

/-- The state built by a successful construction: node 0, zero elapsed
time, phase 0, both positions at node 0, well-formed. -/
lemma init_wf (nodes : List (List ℚ)) (s0 : InterpolatedTrajectory)
    (h : InterpolatedTrajectory.init nodes = Except.ok s0) :
    s0.nodes = nodes ∧ WF s0 ∧ phase s0 = 0 ∧ s0.index = 0 ∧ s0.time = 0 ∧
    s0.curr_pos = (nodeVal nodes 0 0, nodeVal nodes 0 1) ∧
    s0.last_pos = (nodeVal nodes 0 0, nodeVal nodes 0 1) ∧
    s0.target_time = dur nodes 0 := by
  rw [InterpolatedTrajectory.init] at h
  cases hchk : checkNodes nodes with
  | error e => rw [hchk] at h; exact absurd h (by simp)
  | ok found =>
    rw [hchk] at h
    dsimp only at h
    by_cases hf : found = true
    · rw [hf] at h
      simp only [Bool.not_true, Bool.false_eq_true, if_false] at h
      have hnil : nodes ≠ [] := by
        intro hcon
        rw [hcon] at hchk
        rw [checkNodes] at hchk
        have : found = false := (Except.ok.inj hchk).symm
        rw [this] at hf
        exact absurd hf (by simp)
      have hlen : 0 < nodes.length := List.length_pos.mpr hnil
      obtain rfl := (Except.ok.inj h).symm
      refine ⟨rfl, ⟨⟨hlen, rfl, rfl⟩, le_rfl, Or.inr rfl⟩, ?_, rfl, rfl,
        rfl, rfl, rfl⟩
      show prefixSum nodes 0 + 0 = 0
      simp [prefixSum]
    · rw [if_pos] at h
      · exact absurd h (by simp)
      · simp [Bool.not_eq_true] at hf
        rw [hf]
        rfl

end SequenceLemmas

section TerminationLemmas

lemma skip_mono : ∀ (f f2 : ℕ) (s s2 : InterpolatedTrajectory), f ≤ f2 →
    skipZeroTime f s = some s2 → skipZeroTime f2 s = some s2 := by
  intro f
  induction f with
  | zero =>
    intro f2 s s2 hle h
    rw [skipZeroTime] at h
    split at h
    · exact absurd h (by simp)
    case isFalse hn =>
      cases f2 with
      | zero => rw [skipZeroTime, if_neg hn]; exact h
      | succ f2 => rw [skipZeroTime, if_neg hn]; exact h
  | succ f ihf =>
    intro f2 s s2 hle h
    rw [skipZeroTime] at h
    split at h
    case isTrue ht =>
      obtain ⟨f2', rfl⟩ : ∃ f2', f2 = f2' + 1 := ⟨f2 - 1, by omega⟩
      rw [skipZeroTime, if_pos ht]
      exact ihf f2' _ _ (by omega) h
    case isFalse hn =>
      cases f2 with
      | zero => rw [skipZeroTime, if_neg hn]; exact h
      | succ f2 => rw [skipZeroTime, if_neg hn]; exact h

lemma overshoot_mono : ∀ (f f2 : ℕ) (r : ℚ) (s : InterpolatedTrajectory)
    (out : ℚ × InterpolatedTrajectory), f ≤ f2 →
    overshoot f r s = some out → overshoot f2 r s = some out := by
  intro f
  induction f with
  | zero =>
    intro f2 r s out hle h
    rw [overshoot] at h
    split at h
    · exact absurd h (by simp)
    case isFalse hn =>
      cases f2 with
      | zero => rw [overshoot, if_neg hn]; exact h
      | succ f2 => rw [overshoot, if_neg hn]; exact h
  | succ f ihf =>
    intro f2 r s out hle h
    rw [overshoot] at h
    split at h
    case isTrue ht =>
      obtain ⟨f2', rfl⟩ : ∃ f2', f2 = f2' + 1 := ⟨f2 - 1, by omega⟩
      rw [overshoot, if_pos ht]
      dsimp only at h ⊢
      exact ihf f2' _ _ _ (by omega) h
    case isFalse hn =>
      cases f2 with
      | zero => rw [overshoot, if_neg hn]; exact h
      | succ f2 => rw [overshoot, if_neg hn]; exact h

/-- If some node at cyclic distance j ahead of the current index has
non-zero duration, the skip loop completes within fuel j. -/
lemma skip_exists_aux : ∀ (j : ℕ) (s : InterpolatedTrajectory), WFBase s →
    dur s.nodes ((s.index + j) % s.nodes.length) ≠ 0 →
    ∃ s2, skipZeroTime j s = some s2 := by
  intro j
  induction j with
  | zero =>
    intro s hb hd
    have ht : s.target_time ≠ 0 := by
      rw [hb.2.2]
      rwa [Nat.add_zero, Nat.mod_eq_of_lt hb.1] at hd
    exact ⟨s, by rw [skipZeroTime, if_neg ht]⟩
  | succ j ihj =>
    intro s hb hd
    by_cases ht : s.target_time = 0
    · obtain ⟨hbg, hmod⟩ := go_next_wf s hb
      have hnodes : (go_to_next_index s).nodes = s.nodes := (go_next_fields s).1
      obtain ⟨s2, hs2⟩ := ihj (go_to_next_index s) hbg (by
        rw [hnodes, hmod, Nat.mod_add_mod]
        have harith : s.index + 1 + j = s.index + (j + 1) := by omega
        rw [harith]
        exact hd)
      exact ⟨s2, by rw [skipZeroTime, if_pos ht]; exact hs2⟩
    · exact ⟨s, by rw [skipZeroTime, if_neg ht]⟩

/-- On a valid node list the skip loop always terminates: some fuel
suffices. -/
lemma skip_exists (s : InterpolatedTrajectory) (hv : ValidNodes s.nodes)
    (hb : WFBase s) : ∃ f s2, skipZeroTime f s = some s2 := by
  obtain ⟨-, -, i, hi, hipos⟩ := hv
  refine ⟨(i + s.nodes.length - s.index) % s.nodes.length, ?_⟩
  apply skip_exists_aux _ s hb
  have h0 : s.index < s.nodes.length := hb.1
  have hidx : s.index ≤ i + s.nodes.length := by omega
  rw [Nat.add_mod_mod, Nat.add_sub_cancel' hidx, Nat.add_mod_right,
    Nat.mod_eq_of_lt hi]
  exact ne_of_gt hipos

lemma cycSum_zero (nodes : List (List ℚ)) (i : ℕ) : cycSum nodes i 0 = 0 := by
  simp [cycSum]

lemma cycSum_succ_shift (nodes : List (List ℚ)) (i j : ℕ)
    (hi : i < nodes.length) :
    cycSum nodes i (j + 1) =
      dur nodes i + cycSum nodes ((i + 1) % nodes.length) j := by
  rw [cycSum, Finset.sum_range_succ', add_comm]
  congr 1
  · rw [Nat.add_zero, Nat.mod_eq_of_lt hi]
  · rw [cycSum]
    apply Finset.sum_congr rfl
    intro l hl
    congr 1
    rw [Nat.mod_add_mod]
    congr 1
    omega

lemma cycSum_step (nodes : List (List ℚ)) (i : ℕ) :
    cycSum nodes (i + 1) nodes.length = cycSum nodes i nodes.length := by
  have h1 := Finset.sum_range_succ'
    (fun l => dur nodes ((i + l) % nodes.length)) nodes.length
  have h2 := Finset.sum_range_succ
    (fun l => dur nodes ((i + l) % nodes.length)) nodes.length
  have h3 : dur nodes ((i + nodes.length) % nodes.length) =
      dur nodes ((i + 0) % nodes.length) := by
    rw [Nat.add_zero, Nat.add_mod_right]
  have h4 : ∑ l ∈ Finset.range nodes.length,
      dur nodes ((i + (l + 1)) % nodes.length) =
      ∑ l ∈ Finset.range nodes.length,
      dur nodes ((i + l) % nodes.length) := by
    rw [h2] at h1
    rw [h3] at h1
    linarith
  rw [cycSum, cycSum, ← h4]
  apply Finset.sum_congr rfl
  intro l hl
  congr 2
  omega

lemma cycSum_full (nodes : List (List ℚ)) (i : ℕ) :
    cycSum nodes i nodes.length = totalTime nodes := by
  induction i with
  | zero =>
    rw [cycSum, totalTime, prefixSum]
    apply Finset.sum_congr rfl
    intro l hl
    congr 1
    rw [Nat.zero_add, Nat.mod_eq_of_lt (Finset.mem_range.mp hl)]
  | succ i ih =>
    rw [cycSum_step]
    exact ih

/-- Inner step of the overshoot-termination argument: if termination holds
below m whole cycles, it holds below m cycles plus j further segments. -/
lemma overshoot_inner (m : ℕ)
    (base : ∀ (r : ℚ) (s : InterpolatedTrajectory), ValidNodes s.nodes →
      WFBase s → 0 ≤ r → r < (m : ℚ) * totalTime s.nodes →
      ∃ fuel out, overshoot fuel r s = some out) :
    ∀ (j : ℕ) (r : ℚ) (s : InterpolatedTrajectory), ValidNodes s.nodes →
      WFBase s → 0 ≤ r →
      r < (m : ℚ) * totalTime s.nodes + cycSum s.nodes s.index j →
      ∃ fuel out, overshoot fuel r s = some out := by
  intro j
  induction j with
  | zero =>
    intro r s hv hb hr hlt
    rw [cycSum_zero] at hlt
    apply base r s hv hb hr
    linarith
  | succ j ihj =>
    intro r s hv hb hr hlt
    by_cases hge : r ≥ s.target_time
    · obtain ⟨hbg, hmod⟩ := go_next_wf s hb
      have hnodesg : (go_to_next_index s).nodes = s.nodes :=
        (go_next_fields s).1
      have hr1 : 0 ≤ r - s.target_time := sub_nonneg.mpr hge
      have hvg : ValidNodes (go_to_next_index s).nodes := by
        rw [hnodesg]; exact hv
      rw [cycSum_succ_shift s.nodes s.index j hb.1] at hlt
      have hlt2 : r - s.target_time <
          (m : ℚ) * totalTime (go_to_next_index s).nodes +
            cycSum (go_to_next_index s).nodes (go_to_next_index s).index j := by
        rw [hnodesg, hmod]
        have hdur : s.target_time = dur s.nodes s.index := hb.2.2
        linarith
      obtain ⟨fuel, out, hout⟩ :=
        ihj (r - s.target_time) (go_to_next_index s) hvg hbg hr1 hlt2
      refine ⟨fuel + 1, out, ?_⟩
      rw [overshoot, if_pos hge]
      dsimp only
      rw [if_neg (not_lt.mpr hr1)]
      exact hout
    · exact ⟨0, (r, s), by rw [overshoot, if_neg hge]⟩

end TerminationLemmas

section TerminationClaims

lemma overshoot_exists_m : ∀ (m : ℕ) (r : ℚ) (s : InterpolatedTrajectory),
    ValidNodes s.nodes → WFBase s → 0 ≤ r →
    r < (m : ℚ) * totalTime s.nodes →
    ∃ fuel out, overshoot fuel r s = some out := by
  intro m
  induction m with
  | zero =>
    intro r s hv hb hr hlt
    exfalso
    push_cast at hlt
    linarith
  | succ m ihm =>
    intro r s hv hb hr hlt
    apply overshoot_inner m ihm s.nodes.length r s hv hb hr
    rw [cycSum_full]
    push_cast at hlt ⊢
    linarith

/-- On a valid node list the overshoot loop always terminates for a
nonnegative remaining step: some fuel suffices. -/
lemma overshoot_exists (r : ℚ) (s : InterpolatedTrajectory)
    (hv : ValidNodes s.nodes) (hb : WFBase s) (hr : 0 ≤ r) :
    ∃ fuel out, overshoot fuel r s = some out := by
  have hT : 0 < totalTime s.nodes := totalTime_pos s.nodes hv
  obtain ⟨m, hm⟩ := exists_nat_gt (r / totalTime s.nodes)
  apply overshoot_exists_m m r s hv hb hr
  rwa [div_lt_iff₀ hT] at hm

/-- C5: on a valid node list (nonempty, nonnegative durations, at least one
positive) and a nonnegative step, get_next_position terminates from any
reachable well-formed state: some fuel makes both the zero-duration skip
loop and the overshoot loop complete, producing a state. -/
theorem claim_C5 (s : InterpolatedTrajectory) (step : ℚ)
    (hv : ValidNodes s.nodes) (hwf : WF s) (hstep : 0 ≤ step) :
    ∃ fuel s2, get_next_position fuel s step = some s2 := by
  obtain ⟨f1, s1, hs1⟩ := skip_exists s hv hwf.1
  obtain ⟨hn1, ht1, -, -, hwf1, htz1, -⟩ := skip_spec f1 s s1 hs1 hwf
  by_cases hge : s1.time + step ≥ s1.target_time
  · obtain ⟨hbg, -⟩ := go_next_wf s1 hwf1.1
    have hvg : ValidNodes (go_to_next_index s1).nodes := by
      rw [(go_next_fields s1).1, hn1]; exact hv
    have hr0 : 0 ≤ step - (s1.target_time - s1.time) := by linarith
    obtain ⟨f2, out, hout⟩ :=
      overshoot_exists (step - (s1.target_time - s1.time))
        (go_to_next_index s1) hvg hbg hr0
    refine ⟨max f1 f2, ?_⟩
    have hs1m : skipZeroTime (max f1 f2) s = some s1 :=
      skip_mono f1 (max f1 f2) s s1 (le_max_left f1 f2) hs1
    have houtm : overshoot (max f1 f2) (step - (s1.target_time - s1.time))
        (go_to_next_index s1) = some out :=
      overshoot_mono f2 (max f1 f2) _ _ _ (le_max_right f1 f2) hout
    rw [get_next_position, hs1m]
    dsimp only
    rw [if_pos hge, houtm]
    obtain ⟨r, s3⟩ := out
    exact ⟨_, rfl⟩
  · refine ⟨f1, ?_⟩
    rw [get_next_position, hs1]
    dsimp only
    rw [if_neg hge]
    exact ⟨_, rfl⟩

/-- Witness for C5 at a concrete valid state. -/
theorem claim_C5_witness :
    ∃ fuel s2,
      get_next_position fuel
        (InterpolatedTrajectory.mk [[0, 0, 1], [1, 1, 0]] 0 1 0 (0, 0) (0, 0) 1)
        (5 / 2) = some s2 :=
  claim_C5 (InterpolatedTrajectory.mk [[0, 0, 1], [1, 1, 0]] 0 1 0 (0, 0) (0, 0) 1)
    (5 / 2)
    ⟨by decide, by decide, 0, by decide, by decide⟩
    ⟨⟨by decide, by decide, by decide⟩, by decide, Or.inr (by decide)⟩
    (by norm_num)

end TerminationClaims

section InvariantClaims

/-- C4: on a valid node list, after any nonempty sequence of advances from a
freshly constructed trajectory, the state has a positive current segment
duration, elapsed time e with 0 ≤ e < duration of the current segment, and
next index equal to current index + 1 modulo the list length. -/
theorem claim_C4 (nodes : List (List ℚ)) (fuel : ℕ) (steps : List ℚ)
    (s0 s2 : InterpolatedTrajectory) (hv : ValidNodes nodes)
    (hinit : InterpolatedTrajectory.init nodes = Except.ok s0)
    (hpos : ∀ x ∈ steps, 0 ≤ x) (hne : steps ≠ [])
    (hrun : advanceSeq fuel s0 steps = some s2) :
    0 < dur s2.nodes s2.index ∧ 0 ≤ s2.time ∧
    s2.time < dur s2.nodes s2.index ∧
    s2.next_index = (s2.index + 1) % s2.nodes.length := by
  obtain ⟨hn0, hwf0, -, -, -, -, -, -⟩ := init_wf nodes s0 hinit
  have hv0 : ValidNodes s0.nodes := by rw [hn0]; exact hv
  obtain ⟨hn2, -, hprops⟩ := seq_spec steps fuel s0 s2 hv0 hwf0 hpos hrun
  obtain ⟨hwfs, -, -, -⟩ := hprops hne
  have htlt : s2.time < dur s2.nodes s2.index := by
    rw [← hwfs.1.2.2]; exact hwfs.2.2
  refine ⟨lt_of_le_of_lt hwfs.2.1 htlt, hwfs.2.1, htlt, ?_⟩
  rw [hwfs.1.2.1, mod_step hwfs.1.1]

/-- Witness for C4: one advance of 1/2 on the single node [(0,0,1)]. -/
theorem claim_C4_witness :
    0 < dur [[(0 : ℚ), 0, 1]] 0 ∧ 0 ≤ (1 / 2 : ℚ) ∧
    (1 / 2 : ℚ) < dur [[(0 : ℚ), 0, 1]] 0 ∧ 0 = (0 + 1) % 1 := by
  have h := claim_C4 [[(0 : ℚ), 0, 1]] 1 [1 / 2]
    (InterpolatedTrajectory.mk [[(0 : ℚ), 0, 1]] 0 0 0 (0, 0) (0, 0) 1)
    (InterpolatedTrajectory.mk [[(0 : ℚ), 0, 1]] 0 0 (1 / 2) (0, 0) (0, 0) 1)
    ⟨by decide, by decide, 0, by decide, by decide⟩
    (by norm_num [InterpolatedTrajectory.init, checkNodes, nodeVal])
    (by norm_num) (by decide)
    (by norm_num [advanceSeq, get_next_position, skipZeroTime, overshoot,
      go_to_next_index, get_next_index, nodeVal])
  exact h

/-- C3: a single advance from a reachable well-formed state on a valid node
list always lands strictly inside a positive-duration segment (skipping any
run of zero-duration segments).  The landing is pinned to the step: the new
phase equals the old phase plus the step minus a whole number of cycles,
and lies in the landing segment's phase interval — by uniqueness of the
positive-duration segment containing a phase (seg_unique) this is exactly
the first positive-duration segment reached.  When the step carries the
phase exactly onto the landing segment's start boundary (step equals the
crossed segments' remaining durations, modulo whole cycles) the leftover
elapsed time is exactly zero. -/
theorem claim_C3 (fuel : ℕ) (s s2 : InterpolatedTrajectory) (step : ℚ)
    (hv : ValidNodes s.nodes) (hwf : WF s) (hstep : 0 ≤ step)
    (h : get_next_position fuel s step = some s2) :
    0 < dur s2.nodes s2.index ∧
    (∃ k : ℤ, phase s2 = phase s + step - k * totalTime s.nodes) ∧
    prefixSum s2.nodes s2.index ≤ phase s2 ∧
    phase s2 < prefixSum s2.nodes s2.index + dur s2.nodes s2.index ∧
    (∀ k : ℤ, phase s + step =
        prefixSum s2.nodes s2.index + k * totalTime s.nodes →
      s2.time = 0) := by
  obtain ⟨hn2, hwfs, -, -, hph0, hphT, kz, hkz⟩ :=
    adv_spec fuel s s2 step h hv hwf hstep
  have htlt : s2.time < dur s2.nodes s2.index := by
    rw [← hwfs.1.2.2]; exact hwfs.2.2
  have hdpos : 0 < dur s2.nodes s2.index := lt_of_le_of_lt hwfs.2.1 htlt
  have hphase : phase s2 = prefixSum s2.nodes s2.index + s2.time := rfl
  have hT : 0 < totalTime s.nodes := totalTime_pos s.nodes hv
  have hpre0 : 0 ≤ prefixSum s2.nodes s2.index := by
    refine prefixSum_nonneg s2.nodes ?_ hwfs.1.1.le
    rw [hn2]; exact hv.2.1
  have hdle : prefixSum s2.nodes s2.index + dur s2.nodes s2.index ≤
      totalTime s2.nodes := by
    refine prefixSum_add_dur_le s2.nodes ?_ hwfs.1.1
    rw [hn2]; exact hv.2.1
  rw [hn2] at hdle
  refine ⟨hdpos, ⟨kz, hkz⟩,
    by rw [hphase]; linarith [hwfs.2.1], by rw [hphase]; linarith, ?_⟩
  intro k hk
  have htime_eq : s2.time = ((k - kz : ℤ) : ℚ) * totalTime s.nodes := by
    rw [hk] at hkz
    rw [hphase] at hkz
    push_cast
    linarith
  refine mod_unique hT hwfs.2.1 ?_ le_rfl hT
    ⟨k - kz, by rw [sub_zero, htime_eq]⟩
  linarith

/-- Witness for C3: nodes [(0,0,1),(1,1,0),(2,2,0),(3,3,1)], one advance of
step 1 from the initial state crosses the zero-duration segments 1 and 2,
lands in segment 3, and leaves elapsed time exactly 0. -/
theorem claim_C3_witness :
    0 < dur [[(0 : ℚ), 0, 1], [1, 1, 0], [2, 2, 0], [3, 3, 1]] 3 ∧
    (∃ k : ℤ,
      phase (InterpolatedTrajectory.mk
          [[(0 : ℚ), 0, 1], [1, 1, 0], [2, 2, 0], [3, 3, 1]]
          3 0 0 (0, 0) (3, 3) 1) =
        phase (InterpolatedTrajectory.mk
          [[(0 : ℚ), 0, 1], [1, 1, 0], [2, 2, 0], [3, 3, 1]]
          0 1 0 (0, 0) (0, 0) 1) + 1 -
        k * totalTime [[(0 : ℚ), 0, 1], [1, 1, 0], [2, 2, 0], [3, 3, 1]]) ∧
    (InterpolatedTrajectory.mk [[(0 : ℚ), 0, 1], [1, 1, 0], [2, 2, 0], [3, 3, 1]]
      3 0 0 (0, 0) (3, 3) 1).time = 0 := by
  have h := claim_C3 10
    (InterpolatedTrajectory.mk [[(0 : ℚ), 0, 1], [1, 1, 0], [2, 2, 0], [3, 3, 1]]
      0 1 0 (0, 0) (0, 0) 1)
    (InterpolatedTrajectory.mk [[(0 : ℚ), 0, 1], [1, 1, 0], [2, 2, 0], [3, 3, 1]]
      3 0 0 (0, 0) (3, 3) 1)
    1
    ⟨by decide, by decide, 0, by decide, by decide⟩
    ⟨⟨by decide, by decide, by decide⟩, by decide, Or.inr (by decide)⟩
    (by norm_num)
    (by norm_num [get_next_position, skipZeroTime, overshoot,
      go_to_next_index, get_next_index, nodeVal])
  exact ⟨h.1, h.2.1, h.2.2.2.2 0 (by norm_num [phase, prefixSum, totalTime,
    dur, nodeVal, Finset.sum_range_succ])⟩

/-- C2 (amended): on a valid node list, the position after a nonempty
sequence of nonnegative advances depends only on the total elapsed time,
not on how it is split into steps; and when the total equals the sum of all
durations the trajectory returns to its starting position, provided the
first node's duration is positive. -/
theorem claim_C2 (nodes : List (List ℚ)) (fuel1 fuel2 : ℕ)
    (steps1 steps2 : List ℚ) (s0 s1 s2 : InterpolatedTrajectory)
    (hv : ValidNodes nodes)
    (hinit : InterpolatedTrajectory.init nodes = Except.ok s0)
    (hp1 : ∀ x ∈ steps1, 0 ≤ x) (hp2 : ∀ x ∈ steps2, 0 ≤ x)
    (hne1 : steps1 ≠ []) (hne2 : steps2 ≠ [])
    (hrun1 : advanceSeq fuel1 s0 steps1 = some s1)
    (hrun2 : advanceSeq fuel2 s0 steps2 = some s2) :
    (steps1.sum = steps2.sum → s1.curr_pos = s2.curr_pos) ∧
    (steps1.sum = totalTime nodes → 0 < dur nodes 0 →
      s1.curr_pos = s0.curr_pos) := by
  obtain ⟨hn0, hwf0, hph0, -, -, hcp0, -, -⟩ := init_wf nodes s0 hinit
  have hv0 : ValidNodes s0.nodes := by rw [hn0]; exact hv
  have hT : 0 < totalTime s0.nodes := totalTime_pos s0.nodes hv0
  obtain ⟨hn1, ⟨k1, hk1⟩, hq1⟩ := seq_spec steps1 fuel1 s0 s1 hv0 hwf0 hp1 hrun1
  obtain ⟨hn2, ⟨k2, hk2⟩, hq2⟩ := seq_spec steps2 fuel2 s0 s2 hv0 hwf0 hp2 hrun2
  obtain ⟨hwfs1, hcp1, hpa1, hpb1⟩ := hq1 hne1
  obtain ⟨hwfs2, hcp2, hpa2, hpb2⟩ := hq2 hne2
  constructor
  · intro hsum
    have hpheq : phase s1 = phase s2 := by
      refine mod_unique hT hpa1 hpb1 hpa2 hpb2 ⟨k2 - k1, ?_⟩
      rw [hk1, hk2, hsum]
      push_cast
      ring
    obtain ⟨hieq, hteq⟩ := state_from_phase s0.nodes hv0.2.1 s1 s2
      hwfs1 hwfs2 hn1 hn2 hpheq
    rw [hcp1, hcp2, hn1, hn2, hieq, hteq]
  · intro hsum hdur0
    have hph1 : phase s1 = 0 := by
      refine mod_unique hT hpa1 hpb1 le_rfl hT ⟨1 - k1, ?_⟩
      rw [sub_zero, hk1, hph0, hsum, hn0]
      push_cast
      ring
    have hlen0 : 0 < s0.nodes.length :=
      List.length_pos.mpr (by rw [hn0]; exact hv.1)
    have htlt1 : s1.time < dur s0.nodes s1.index := by
      rw [← hn1, ← hwfs1.1.2.2]
      exact hwfs1.2.2
    have hdur0' : (0 : ℚ) < dur s0.nodes 0 := by rw [hn0]; exact hdur0
    have heq : prefixSum s0.nodes s1.index + s1.time =
        prefixSum s0.nodes 0 + 0 := by
      have : prefixSum s0.nodes 0 = 0 := by simp [prefixSum]
      rw [this, add_zero]
      rw [phase, hn1] at hph1
      exact hph1
    obtain ⟨hieq, hteq⟩ := seg_unique s0.nodes hv0.2.1
      (by rw [← hn1]; exact hwfs1.1.1) hlen0
      hwfs1.2.1 htlt1 le_rfl hdur0' heq
    rw [hcp1, hn1, hieq, hteq, hcp0]
    dsimp only [interpPos]
    rw [mul_zero, zero_div, add_zero, mul_zero, zero_div, add_zero, hn0]

/-- Counterexample to C2 as stated: on the valid node list
[(5,5,0),(1,1,1)] (durations nonnegative, one positive), a single advance
whose step 1 equals the sum of all durations succeeds but ends at (1,1),
the first positive-duration node, not at the starting position (5,5):
the zero-duration first segment is skipped and never revisited. -/
theorem claim_C2_counterexample :
    ValidNodes [[(5 : ℚ), 5, 0], [1, 1, 1]] ∧
    InterpolatedTrajectory.init [[(5 : ℚ), 5, 0], [1, 1, 1]] =
      Except.ok (InterpolatedTrajectory.mk [[(5 : ℚ), 5, 0], [1, 1, 1]]
        0 1 0 (5, 5) (5, 5) 0) ∧
    List.sum [(1 : ℚ)] = totalTime [[(5 : ℚ), 5, 0], [1, 1, 1]] ∧
    advanceSeq 10 (InterpolatedTrajectory.mk [[(5 : ℚ), 5, 0], [1, 1, 1]]
        0 1 0 (5, 5) (5, 5) 0) [1] =
      some (InterpolatedTrajectory.mk [[(5 : ℚ), 5, 0], [1, 1, 1]]
        1 0 0 (5, 5) (1, 1) 1) ∧
    (InterpolatedTrajectory.mk [[(5 : ℚ), 5, 0], [1, 1, 1]]
        1 0 0 (5, 5) (1, 1) 1).curr_pos ≠
      (InterpolatedTrajectory.mk [[(5 : ℚ), 5, 0], [1, 1, 1]]
        0 1 0 (5, 5) (5, 5) 0).curr_pos := by
  refine ⟨⟨by decide, by decide, 1, by decide, by decide⟩, ?_, ?_, ?_, ?_⟩
  · norm_num [InterpolatedTrajectory.init, checkNodes, nodeVal]
  · norm_num [totalTime, prefixSum, dur, nodeVal, Finset.sum_range_succ]
  · norm_num [advanceSeq, get_next_position, skipZeroTime, overshoot,
      go_to_next_index, get_next_index, nodeVal]
  · decide

/-- Witness for C2: square-free example with nodes [(0,0,1),(1,0,1)]
(total duration 2): one step of 2 and two steps of 1 both end at (0,0),
the starting position. -/
theorem claim_C2_witness :
    ((InterpolatedTrajectory.mk [[(0 : ℚ), 0, 1], [1, 0, 1]]
        0 1 0 (0, 0) (0, 0) 1).curr_pos =
      (InterpolatedTrajectory.mk [[(0 : ℚ), 0, 1], [1, 0, 1]]
        0 1 0 (1, 0) (0, 0) 1).curr_pos) ∧
    (InterpolatedTrajectory.mk [[(0 : ℚ), 0, 1], [1, 0, 1]]
        0 1 0 (0, 0) (0, 0) 1).curr_pos =
      (InterpolatedTrajectory.mk [[(0 : ℚ), 0, 1], [1, 0, 1]]
        0 1 0 (0, 0) (0, 0) 1).curr_pos := by
  have h := claim_C2 [[(0 : ℚ), 0, 1], [1, 0, 1]] 10 10 [2] [1, 1]
    (InterpolatedTrajectory.mk [[(0 : ℚ), 0, 1], [1, 0, 1]]
      0 1 0 (0, 0) (0, 0) 1)
    (InterpolatedTrajectory.mk [[(0 : ℚ), 0, 1], [1, 0, 1]]
      0 1 0 (0, 0) (0, 0) 1)
    (InterpolatedTrajectory.mk [[(0 : ℚ), 0, 1], [1, 0, 1]]
      0 1 0 (1, 0) (0, 0) 1)
    ⟨by decide, by decide, 0, by decide, by decide⟩
    (by norm_num [InterpolatedTrajectory.init, checkNodes, nodeVal])
    (by norm_num) (by norm_num) (by decide) (by decide)
    (by norm_num [advanceSeq, get_next_position, skipZeroTime, overshoot,
      go_to_next_index, get_next_index, nodeVal])
    (by norm_num [advanceSeq, get_next_position, skipZeroTime, overshoot,
      go_to_next_index, get_next_index, nodeVal])
  exact ⟨h.1 (by norm_num),
    h.2 (by norm_num [totalTime, prefixSum, dur, nodeVal,
      Finset.sum_range_succ]) (by decide)⟩

end InvariantClaims

section ConstructorClaims

/-- The validation loop raises exactly when some node does not have exactly
three fields. -/
lemma checkNodes_error_iff : ∀ nodes : List (List ℚ),
    (∃ e, checkNodes nodes = Except.error e) ↔ ∃ nd ∈ nodes, nd.length ≠ 3 := by
  intro nodes
  induction nodes with
  | nil => simp [checkNodes]
  | cons node rest ih =>
    rw [checkNodes]
    by_cases hl : node.length ≠ 3
    · rw [if_pos hl]
      simp only [List.mem_cons]
      exact ⟨fun _ => ⟨node, Or.inl rfl, hl⟩, fun _ => ⟨_, rfl⟩⟩
    · rw [if_neg hl]
      push_neg at hl
      cases hchk : checkNodes rest with
      | error e =>
        dsimp only
        constructor
        · intro
          obtain ⟨nd, hnd, hne⟩ := ih.mp ⟨e, hchk⟩
          exact ⟨nd, List.mem_cons_of_mem node hnd, hne⟩
        · intro
          exact ⟨e, rfl⟩
      | ok found =>
        dsimp only
        rw [hchk] at ih
        constructor
        · rintro ⟨e, he⟩
          exact absurd he (by simp)
        · rintro ⟨nd, hnd, hne⟩
          rcases List.mem_cons.mp hnd with rfl | hnd2
          · exact absurd hl hne
          · obtain ⟨e, he⟩ := ih.mpr ⟨nd, hnd2, hne⟩
            exact absurd he (by simp)

/-- The flag reported by the validation loop: true exactly when some node
has non-zero time. -/
lemma checkNodes_found : ∀ (nodes : List (List ℚ)) (found : Bool),
    checkNodes nodes = Except.ok found →
    (found = true ↔ ∃ nd ∈ nodes, nd.getD 2 0 ≠ 0) := by
  intro nodes
  induction nodes with
  | nil =>
    intro found h
    rw [checkNodes] at h
    obtain rfl := (Except.ok.inj h).symm
    simp
  | cons node rest ih =>
    intro found h
    rw [checkNodes] at h
    split at h
    · exact absurd h (by simp)
    case isFalse hl =>
      cases hchk : checkNodes rest with
      | error e => rw [hchk] at h; exact absurd h (by simp)
      | ok f2 =>
        rw [hchk] at h
        dsimp only at h
        obtain rfl := (Except.ok.inj h).symm
        rw [Bool.or_eq_true, bne_iff_ne]
        constructor
        · rintro (h1 | h2)
          · exact ⟨node, List.mem_cons_self node rest, h1⟩
          · obtain ⟨nd, hnd, hne⟩ := (ih f2 hchk).mp h2
            exact ⟨nd, List.mem_cons_of_mem node hnd, hne⟩
        · rintro ⟨nd, hnd, hne⟩
          rcases List.mem_cons.mp hnd with rfl | hnd2
          · exact Or.inl hne
          · exact Or.inr ((ih f2 hchk).mpr ⟨nd, hnd2, hne⟩)

/-- The constructor raises exactly when some node has the wrong arity or
every node has zero time. -/
lemma init_error_iff (nodes : List (List ℚ)) :
    (∃ e, InterpolatedTrajectory.init nodes = Except.error e) ↔
      ((∃ nd ∈ nodes, nd.length ≠ 3) ∨ ∀ nd ∈ nodes, nd.getD 2 0 = 0) := by
  rw [InterpolatedTrajectory.init]
  cases hchk : checkNodes nodes with
  | error e =>
    dsimp only
    constructor
    · intro
      exact Or.inl ((checkNodes_error_iff nodes).mp ⟨e, hchk⟩)
    · intro
      exact ⟨e, rfl⟩
  | ok found =>
    dsimp only
    have hnotbad : ¬ ∃ nd ∈ nodes, nd.length ≠ 3 := by
      rw [← checkNodes_error_iff nodes]
      rintro ⟨e, he⟩
      rw [hchk] at he
      exact absurd he (by simp)
    have hfound := checkNodes_found nodes found hchk
    by_cases hf : found = true
    · rw [hf]
      simp only [Bool.not_true, Bool.false_eq_true, if_false]
      constructor
      · rintro ⟨e, he⟩
        exact absurd he (by simp)
      · rintro (hbad | hzero)
        · exact absurd hbad hnotbad
        · exfalso
          obtain ⟨nd, hnd, hne⟩ := hfound.mp hf
          exact hne (hzero nd hnd)
    · have hf2 : found = false := by simpa using hf
      rw [hf2]
      simp only [Bool.not_false, if_true]
      constructor
      · intro
        right
        intro nd hnd
        by_contra hne
        exact hf (hfound.mpr ⟨nd, hnd, hne⟩)
      · intro
        exact ⟨_, rfl⟩

/-- C1 (amended): constructing an InterpolatedTrajectory raises a
ValueError exactly when some node does not have exactly three fields or no
node has non-zero duration (the source checks non-zero, not positive, time);
when it does not raise, the state starts at index 0 with elapsed time 0 and
position (nodes[0].x, nodes[0].y). -/
theorem claim_C1 (nodes : List (List ℚ)) :
    ((∃ e, InterpolatedTrajectory.init nodes = Except.error e) ↔
      ((∃ nd ∈ nodes, nd.length ≠ 3) ∨ ∀ nd ∈ nodes, nd.getD 2 0 = 0)) ∧
    (∀ s0, InterpolatedTrajectory.init nodes = Except.ok s0 →
      s0.index = 0 ∧ s0.time = 0 ∧
      s0.curr_pos = (nodeVal nodes 0 0, nodeVal nodes 0 1)) := by
  refine ⟨init_error_iff nodes, fun s0 h => ?_⟩
  obtain ⟨-, -, -, hi, ht, hc, -, -⟩ := init_wf nodes s0 h
  exact ⟨hi, ht, hc⟩

/-- Counterexample to C1 as stated: the node list [(0,0,-1)] has no node
with positive duration, yet construction succeeds, because the source only
requires some node to have non-zero (not positive) time. -/
theorem claim_C1_counterexample :
    ¬ ((∃ e, InterpolatedTrajectory.init [[(0 : ℚ), 0, -1]] = Except.error e) ↔
      ((∃ nd ∈ [[(0 : ℚ), 0, -1]], nd.length ≠ 3) ∨
        ∀ nd ∈ [[(0 : ℚ), 0, -1]], ¬ 0 < nd.getD 2 0)) := by
  intro h
  have hright : (∃ nd ∈ [[(0 : ℚ), 0, -1]], nd.length ≠ 3) ∨
      ∀ nd ∈ [[(0 : ℚ), 0, -1]], ¬ 0 < nd.getD 2 0 := by
    right
    intro nd hnd
    rcases List.mem_singleton.mp hnd with rfl
    norm_num
  obtain ⟨e, he⟩ := h.mpr hright
  have hok : InterpolatedTrajectory.init [[(0 : ℚ), 0, -1]] =
      Except.ok (InterpolatedTrajectory.mk [[(0 : ℚ), 0, -1]]
        0 0 0 (0, 0) (0, 0) (-1)) := by
    norm_num [InterpolatedTrajectory.init, checkNodes, nodeVal]
  rw [hok] at he
  exact absurd he (by simp)

/-- Witness for C1 at the valid singleton [(1,2,3)]. -/
theorem claim_C1_witness :
    (InterpolatedTrajectory.mk [[(1 : ℚ), 2, 3]] 0 0 0 (1, 2) (1, 2) 3).index
        = 0 ∧
    (InterpolatedTrajectory.mk [[(1 : ℚ), 2, 3]] 0 0 0 (1, 2) (1, 2) 3).time
        = 0 ∧
    (InterpolatedTrajectory.mk [[(1 : ℚ), 2, 3]] 0 0 0 (1, 2) (1, 2) 3).curr_pos
        = (nodeVal [[(1 : ℚ), 2, 3]] 0 0, nodeVal [[(1 : ℚ), 2, 3]] 0 1) :=
  (claim_C1 [[(1 : ℚ), 2, 3]]).2
    (InterpolatedTrajectory.mk [[(1 : ℚ), 2, 3]] 0 0 0 (1, 2) (1, 2) 3)
    (by norm_num [InterpolatedTrajectory.init, checkNodes, nodeVal])

end ConstructorClaims

end Koishi
